import Mathlib

/-!
Verification of the fast_file_finder core (prototype variant, the canonical
design per the spec): a shallow embedding of `search.py` and `indexer.py`,
with theorems checking the specified behaviour of query parsing, candidate
filtering, ranking, manifest handling and the filesystem walker.

Entries are modelled as their rendered path strings (the `str(path)` form the
matcher works on).  Python string primitives (`lower`, `strip`, `split`,
`startswith`, `endswith`, slicing) are given executable models over the
character list of the string.  The external similarity scorer
(`difflib.SequenceMatcher.ratio`, or `rapidfuzz` when installed) is modelled
as an abstract function `ratio : String → String → Rat`; the spec treats the
scorer as a pluggable capability and every property below holds for an
arbitrary scorer.  The embedding follows the `ImportError` branch of
`search.py` (no `rapidfuzz`), whose built-in pipeline is the reference
behaviour.  Regular-expression matching (used only when `use_regex` is on)
is likewise modelled as an abstract engine: a compilability predicate plus a
search predicate.
-/

/-! ### Python string primitives -/

/-- Python `str.lower()`. -/
def lower_str (s : String) : String := ⟨s.data.map Char.toLower⟩

/-- Python `s.startswith(pre)`. -/
def starts_with_str (s pre : String) : Bool := pre.data.isPrefixOf s.data

/-- Python `s.endswith(suf)`. -/
def ends_with_str (s suf : String) : Bool := suf.data.isSuffixOf s.data

/-- Python `str.strip()`: drop leading and trailing whitespace. -/
def trim_str (s : String) : String :=
  ⟨((s.data.dropWhile Char.isWhitespace).reverse.dropWhile
      Char.isWhitespace).reverse⟩

/-- Python `s[n:]`. -/
def drop_str (s : String) (n : Nat) : String := ⟨s.data.drop n⟩

/-- Python `s[:-n]` (for `n ≤ len(s)`). -/
def drop_right_str (s : String) (n : Nat) : String :=
  ⟨s.data.take (s.data.length - n)⟩

/-- Python `s[0]` (on nonempty strings). -/
def first_char (s : String) : Char := s.data.headD default

/-- Python `s[-1]` (on nonempty strings). -/
def last_char (s : String) : Char := s.data.getLastD default

/-- Python's substring test `needle in hay`. -/
def str_contains (needle hay : String) : Bool :=
  decide (needle.data <:+: hay.data)

/-- Helper for `split_ws`: accumulate the current word (reversed) while
scanning. -/
def split_ws_aux : List Char → List Char → List String
  | [], [] => []
  | [], cur => [⟨cur.reverse⟩]
  | c :: cs, cur =>
    if c.isWhitespace then
      if cur = [] then split_ws_aux cs []
      else (⟨cur.reverse⟩ : String) :: split_ws_aux cs []
    else split_ws_aux cs (c :: cur)

/-- Python `str.split()` with no argument: split on whitespace runs,
producing no empty pieces. -/
def split_ws (s : String) : List String := split_ws_aux s.data []

/-- Helper for `pathName`: split a character list at `/`. -/
def split_slash_aux : List Char → List Char → List (List Char)
  | [], cur => [cur.reverse]
  | c :: cs, cur =>
    if c = '/' then cur.reverse :: split_slash_aux cs []
    else split_slash_aux cs (c :: cur)

/-- `pathlib.Path.name` on a rendered path string: the final nonempty path
component (empty for the filesystem root). -/
def pathName (full : String) : String :=
  ⟨((split_slash_aux full.data []).filter (fun c => c ≠ [])).getLastD []⟩

/-! ### Query parsing (`search.py`) -/

/-- `QuerySpec` from `search.py`: the three ordered term groups produced by
query parsing. -/
structure QuerySpec where
  include_terms : List String
  exact_terms : List String
  exclude_terms : List String
deriving DecidableEq, Repr

/-- The sigil character `'` (ASCII 39) that marks exact terms. -/
def quoteChar : Char := Char.ofNat 39

/-- The one-character string holding the exact-term sigil. -/
def quoteTok : String := String.singleton quoteChar

/-- Abstract regular-expression engine: `compiles t` says the term compiles
as a pattern, `searches t s` says the compiled case-insensitive pattern finds
a match inside `s` (Python `re.compile(term, re.IGNORECASE)` /
`pattern.search`). -/
structure RegexEngine where
  compiles : String → Bool
  searches : String → String → Bool

/-- A throw-away concrete engine (used to instantiate universally quantified
theorems at concrete inputs; non-regex searches never consult it). -/
def trivialEngine : RegexEngine := ⟨fun _ => false, fun _ _ => false⟩

/-- A throw-away concrete similarity scorer, likewise for concrete
instances. -/
def zeroRatio : String → String → Rat := fun _ _ => 0

/-- Whitespace tokenization of the raw query (Python `str.split()`). -/
def query_tokens (query : String) : List String := split_ws query

/-- One pass of `_parse_query`'s token loop (`search.py` lines 26-32): a
token starting with `'` of length > 1 becomes an exact term (sigil
stripped), one starting with `!` of length > 1 an exclude term, anything
else an include term, order preserved within each group. -/
def parse_tokens : List String → QuerySpec
  | [] => ⟨[], [], []⟩
  | token :: rest =>
    let acc := parse_tokens rest
    if starts_with_str token quoteTok && decide (1 < token.length) then
      { acc with exact_terms := drop_str token 1 :: acc.exact_terms }
    else if starts_with_str token "!" && decide (1 < token.length) then
      { acc with exclude_terms := drop_str token 1 :: acc.exclude_terms }
    else
      { acc with include_terms := token :: acc.include_terms }

/-- `_parse_query` from `search.py`. -/
def parse_query (query : String) : QuerySpec :=
  parse_tokens (query_tokens query)

/-! ### Matching (`search.py`) -/

/-- `_is_subsequence` from `search.py`: greedy left-to-right consumption of
`query`'s characters along `text`. -/
def subseq_chars : List Char → List Char → Bool
  | [], _ => true
  | _ :: _, [] => false
  | q :: qs, c :: cs =>
    if c = q then subseq_chars qs cs else subseq_chars (q :: qs) cs

/-- String wrapper for `_is_subsequence`. -/
def is_subsequence (query text : String) : Bool :=
  subseq_chars query.data text.data

/-- `_is_fuzzy_match` from `search.py`: case-insensitive substring or
ordered subsequence. -/
def is_fuzzy_match (query text : String) : Bool :=
  let q := lower_str query
  let t := lower_str text
  str_contains q t || is_subsequence q t

/-- Strip a leading `^` and a trailing `$` sigil from a term, as
`_matches_anchored_literal` and `_matches_include_term` do. -/
def strip_sigils (term : String) : String :=
  let core := if starts_with_str term "^" then drop_str term 1 else term
  if ends_with_str term "$" then drop_right_str core 1 else core

/-- `_matches_anchored_literal` from `search.py`: `^`/`$` select prefix /
suffix / full-equality / substring matching of the stripped core; an empty
core never matches. -/
def matches_anchored_literal (term text : String) : Bool :=
  let anchored_start := starts_with_str term "^"
  let anchored_end := ends_with_str term "$"
  let core := strip_sigils term
  if core = "" then false
  else if anchored_start && anchored_end then decide (text = core)
  else if anchored_start then starts_with_str text core
  else if anchored_end then ends_with_str text core
  else str_contains core text

/-- `_matches_exact_term` from `search.py`. -/
def matches_exact_term (term name full : String) : Bool :=
  let t := lower_str term
  matches_anchored_literal t name || matches_anchored_literal t full

/-- `_matches_exclusion_term` from `search.py` (same body as the exact-term
matcher). -/
def matches_exclusion_term (term name full : String) : Bool :=
  let t := lower_str term
  matches_anchored_literal t name || matches_anchored_literal t full

/-- `_matches_include_term` from `search.py`: regex mode defers to the
engine (an uncompilable term never matches); fuzzy mode strips the sigils,
applies the soft single-character anchors and then the fuzzy
substring/subsequence test against basename or full path. -/
def matches_include_term (eng : RegexEngine) (term name full : String)
    (use_regex : Bool) : Bool :=
  if use_regex then
    if eng.compiles term then eng.searches term name || eng.searches term full
    else false
  else
    let t := lower_str term
    let anchored_start := starts_with_str t "^"
    let anchored_end := ends_with_str t "$"
    let core := strip_sigils t
    if core = "" then false
    else if anchored_start
        && !(starts_with_str name (String.singleton (first_char core))
          || starts_with_str full (String.singleton (first_char core))) then
      false
    else if anchored_end
        && !(ends_with_str name (String.singleton (last_char core))
          || ends_with_str full (String.singleton (last_char core))) then
      false
    else is_fuzzy_match core name || is_fuzzy_match core full

/-- `_matches_spec` from `search.py`: exclusion first, then every exact
term, then every include term, on the lowercased basename and full path. -/
def matches_spec (eng : RegexEngine) (spec : QuerySpec) (path : String)
    (use_regex : Bool) : Bool :=
  let name := lower_str (pathName path)
  let full := lower_str path
  if spec.exclude_terms.any (fun t => matches_exclusion_term t name full) then
    false
  else if !spec.exact_terms.all (fun t => matches_exact_term t name full) then
    false
  else
    spec.include_terms.all
      (fun t => matches_include_term eng t name full use_regex)

/-! ### Scoring and ranking (`search.py`) -/

/-- `_score` from `search.py` with the similarity ratio abstracted: ratio
scaled to 0-100, plus 25 when the query is a substring of the text, plus 30
when the text starts with the query. -/
def score (ratio : String → String → Rat) (query text : String) : Rat :=
  let q := lower_str query
  let t := lower_str text
  let base := ratio q t * 100
  let base := if str_contains q t then base + 25 else base
  if starts_with_str t q then base + 30 else base

/-- First-occurrence deduplication with an explicit seen set: the effect of
building the Python dict `{str(entry): entry for entry in filtered}` and
iterating its keys. -/
def dedup_first_aux {α : Type} [BEq α] (seen : List α) : List α → List α
  | [] => []
  | x :: xs =>
    if seen.contains x then dedup_first_aux seen xs
    else x :: dedup_first_aux (x :: seen) xs

/-- First-occurrence deduplication of the filtered candidate list. -/
def dedup_first (l : List String) : List String := dedup_first_aux [] l

/-- The joined scoring query `q` of `search_entries`: lowercased
space-joined include terms, falling back to the first exact term. -/
def joined_query (spec : QuerySpec) : String :=
  let q := lower_str (String.intercalate " " spec.include_terms)
  if q = "" then
    match spec.exact_terms with
    | [] => q
    | t :: _ => lower_str t
  else q

/-- The boost stage of `search_entries` for one scored entry (`search.py`
lines 170-182): +1000 when the lowercased basename equals `q`, else +900
when the lowercased full path equals it; +800 for every exact term that
anchored-matches. -/
def boost_score (spec : QuerySpec) (q path : String) (s : Rat) : Rat :=
  let name := lower_str (pathName path)
  let full := lower_str path
  let adjusted := s
  let adjusted :=
    if q ≠ "" ∧ name = q then adjusted + 1000
    else if q ≠ "" ∧ full = q then adjusted + 900
    else adjusted
  spec.exact_terms.foldl
    (fun a t => if matches_exact_term t name full then a + 800 else a)
    adjusted

/-- `search_entries` from `search.py` (prototype variant, built-in scorer
branch): strip the query, return empty on blank query or non-positive
limit, filter by the parsed spec, deduplicate survivors by rendered path,
score, boost, stable-sort descending by final score and truncate to
`limit`.  `List.mergeSort` with the reflexive-total order on scores is the
stable descending sort that `boosted.sort(key=..., reverse=True)`
performs. -/
def search_entries (eng : RegexEngine) (ratio : String → String → Rat)
    (query : String) (entries : List String) (limit : Int)
    (use_regex : Bool) : List (String × Rat) :=
  let query := trim_str query
  if query = "" then []
  else if limit ≤ 0 then []
  else
    let spec := parse_query query
    let filtered := entries.filter (fun p => matches_spec eng spec p use_regex)
    if filtered = [] then []
    else
      let mapping := dedup_first filtered
      let q := joined_query spec
      let scored := mapping.map
        (fun text => (text, score ratio (if q = "" then text else q) text))
      let boosted := scored.map (fun ps => (ps.1, boost_score spec q ps.1 ps.2))
      let sorted := boosted.mergeSort (fun x y => decide (y.2 ≤ x.2))
      sorted.take limit.toNat

/-! ### Helper lemmas about the search pipeline -/

/-- The boosted (pre-sort) candidate list of `search_entries`, as a single
expression: filter, dedup, score, boost. -/
def boosted_of (eng : RegexEngine) (ratio : String → String → Rat)
    (spec : QuerySpec) (entries : List String) (use_regex : Bool) :
    List (String × Rat) :=
  let q := joined_query spec
  ((dedup_first (entries.filter (fun p => matches_spec eng spec p use_regex))).map
      (fun text => (text, score ratio (if q = "" then text else q) text))).map
    (fun ps => (ps.1, boost_score spec q ps.1 ps.2))

lemma search_entries_eq_sorted_boosted (eng : RegexEngine)
    (ratio : String → String → Rat) (query : String) (entries : List String)
    (limit : Int) (use_regex : Bool)
    (h1 : ¬ trim_str query = "") (h2 : ¬ limit ≤ 0) :
    search_entries eng ratio query entries limit use_regex =
      ((boosted_of eng ratio (parse_query (trim_str query)) entries
          use_regex).mergeSort (fun x y => decide (y.2 ≤ x.2))).take
        limit.toNat := by
  unfold search_entries boosted_of
  rw [if_neg h1, if_neg h2]
  dsimp only
  split
  · rename_i hnil
    rw [hnil]
    simp [dedup_first, dedup_first_aux]
  · rfl

lemma map_fst_boosted_of (eng : RegexEngine) (ratio : String → String → Rat)
    (spec : QuerySpec) (entries : List String) (use_regex : Bool) :
    (boosted_of eng ratio spec entries use_regex).map Prod.fst =
      dedup_first (entries.filter (fun p => matches_spec eng spec p use_regex)) := by
  unfold boosted_of
  simp [List.map_map, Function.comp_def]

lemma dedup_first_aux_sublist {α : Type} [BEq α] (seen : List α) :
    ∀ l : List α, (dedup_first_aux seen l).Sublist l := by
  intro l
  induction l generalizing seen with
  | nil => simp [dedup_first_aux]
  | cons x xs ih =>
    rw [dedup_first_aux]
    split
    · exact (ih seen).trans (List.sublist_cons_self x xs)
    · exact (ih (x :: seen)).cons₂ x

lemma dedup_first_sublist (l : List String) : (dedup_first l).Sublist l :=
  dedup_first_aux_sublist [] l

/-- Any path appearing in a search result survived the spec filter. -/
lemma mem_search_entries_matches (eng : RegexEngine)
    (ratio : String → String → Rat) (query : String) (entries : List String)
    (limit : Int) (use_regex : Bool) (p : String)
    (hp : p ∈ (search_entries eng ratio query entries limit use_regex).map
        Prod.fst) :
    matches_spec eng (parse_query (trim_str query)) p use_regex = true := by
  by_cases h1 : trim_str query = ""
  · simp [search_entries, h1] at hp
  · by_cases h2 : limit ≤ 0
    · unfold search_entries at hp
      rw [if_neg h1, if_pos h2] at hp
      simp at hp
    · rw [search_entries_eq_sorted_boosted eng ratio query entries limit
        use_regex h1 h2] at hp
      rcases List.mem_map.mp hp with ⟨a, ha, rfl⟩
      have ha2 : a ∈ boosted_of eng ratio (parse_query (trim_str query))
          entries use_regex :=
        (List.mergeSort_perm _ _).mem_iff.mp
          (List.Sublist.mem ha (List.take_sublist _ _))
      have hm : a.1 ∈ (boosted_of eng ratio (parse_query (trim_str query))
          entries use_regex).map Prod.fst := List.mem_map_of_mem _ ha2
      rw [map_fst_boosted_of] at hm
      have hf := List.Sublist.mem hm (dedup_first_sublist _)
      exact (List.mem_filter.mp hf).2

/-! ### C3: sigil-only tokens in query parsing -/

lemma parse_tokens_groups (tokens : List String) :
    (∀ t ∈ (parse_tokens tokens).exact_terms, t ≠ "") ∧
    (∀ t ∈ (parse_tokens tokens).exclude_terms, t ≠ "") ∧
    (∀ tok ∈ tokens, (tok = quoteTok ∨ tok = "!") →
      tok ∈ (parse_tokens tokens).include_terms) := by
  induction tokens with
  | nil => simp [parse_tokens]
  | cons token rest ih =>
    rw [parse_tokens]
    by_cases hq :
        (starts_with_str token quoteTok && decide (1 < token.length)) = true
    · rw [if_pos hq]
      simp only [Bool.and_eq_true, decide_eq_true_eq] at hq
      refine ⟨?_, ih.2.1, ?_⟩
      · intro t ht
        rcases List.mem_cons.mp ht with rfl | ht
        · intro hcon
          have hlen : (drop_str token 1).length = token.length - 1 :=
            List.length_drop 1 token.data
          rw [hcon] at hlen
          rw [show ("" : String).length = 0 from rfl] at hlen
          omega
        · exact ih.1 t ht
      · intro tok htok hsig
        rcases List.mem_cons.mp htok with rfl | htok
        · exfalso
          rcases hsig with rfl | rfl
          · have : quoteTok.length = 1 := by decide
            omega
          · have : ("!" : String).length = 1 := by decide
            omega
        · exact ih.2.2 tok htok hsig
    · rw [if_neg hq]
      by_cases hb :
          (starts_with_str token "!" && decide (1 < token.length)) = true
      · rw [if_pos hb]
        simp only [Bool.and_eq_true, decide_eq_true_eq] at hb
        refine ⟨ih.1, ?_, ?_⟩
        · intro t ht
          rcases List.mem_cons.mp ht with rfl | ht
          · intro hcon
            have hlen : (drop_str token 1).length = token.length - 1 :=
              List.length_drop 1 token.data
            rw [hcon] at hlen
            rw [show ("" : String).length = 0 from rfl] at hlen
            omega
          · exact ih.2.1 t ht
        · intro tok htok hsig
          rcases List.mem_cons.mp htok with rfl | htok
          · exfalso
            rcases hsig with rfl | rfl
            · have : quoteTok.length = 1 := by decide
              omega
            · have : ("!" : String).length = 1 := by decide
              omega
          · exact ih.2.2 tok htok hsig
      · rw [if_neg hb]
        refine ⟨ih.1, ih.2.1, ?_⟩
        intro tok htok hsig
        rcases List.mem_cons.mp htok with rfl | htok
        · exact List.mem_cons_self _ _
        · exact List.mem_cons_of_mem _ (ih.2.2 tok htok hsig)

/-- C3 counterexample: parsing the raw query consisting of the single token
`'` does NOT discard it — the token survives verbatim as an include term,
contradicting the claim that a sigil-only token produces no term in any of
the three groups of the parsed QuerySpec. -/
theorem C3_counterexample :
    (parse_query quoteTok).include_terms = [quoteTok] ∧
    (parse_query quoteTok).exact_terms = [] ∧
    (parse_query quoteTok).exclude_terms = [] := by decide

/-- C3 (amended): a sigil-only token (`'` alone or `!` alone) produces no
exact term and no exclude term — every exact and exclude term is nonempty —
but it is not discarded: it is kept verbatim as an include term. -/
theorem C3_sigil_only_tokens (query : String) :
    (∀ t ∈ (parse_query query).exact_terms, t ≠ "") ∧
    (∀ t ∈ (parse_query query).exclude_terms, t ≠ "") ∧
    (∀ tok ∈ query_tokens query, (tok = quoteTok ∨ tok = "!") →
      tok ∈ (parse_query query).include_terms) :=
  parse_tokens_groups (query_tokens query)

/-- Witness for C3: at the concrete raw query `"' a"`, the sigil-only token
`'` ends up among the include terms. -/
theorem C3_witness :
    quoteTok ∈ (parse_query (quoteTok ++ " a")).include_terms :=
  (C3_sigil_only_tokens (quoteTok ++ " a")).2.2 quoteTok (by decide)
    (Or.inl rfl)

/-! ### C9: blank query and non-positive limit -/

/-- C9: `search_entries` returns the empty list whenever the query strips to
the empty string (empty or whitespace-only), for every entry list and limit;
and whenever `limit ≤ 0`, for every entry list and query. -/
theorem C9_blank_query_or_nonpositive_limit (eng : RegexEngine)
    (ratio : String → String → Rat) (query : String) (entries : List String)
    (limit : Int) (use_regex : Bool) :
    (trim_str query = "" →
      search_entries eng ratio query entries limit use_regex = []) ∧
    (limit ≤ 0 →
      search_entries eng ratio query entries limit use_regex = []) := by
  constructor
  · intro h
    unfold search_entries
    rw [if_pos h]
  · intro h
    unfold search_entries
    by_cases h1 : trim_str query = ""
    · rw [if_pos h1]
    · rw [if_neg h1, if_pos h]

/-- Witness for C9: a whitespace-only query with entries present, and a
non-empty query with `limit = 0`, both return the empty list. -/
theorem C9_witness :
    search_entries trivialEngine zeroRatio "  " ["/tmp/a.txt"] 5 false = []
      ∧
    search_entries trivialEngine zeroRatio "a" ["/tmp/a.txt"] 0 false = [] :=
  ⟨(C9_blank_query_or_nonpositive_limit trivialEngine zeroRatio "  "
      ["/tmp/a.txt"] 5 false).1 (by decide),
   (C9_blank_query_or_nonpositive_limit trivialEngine zeroRatio "a"
      ["/tmp/a.txt"] 0 false).2 (by decide)⟩

/-! ### C10: sigil-only anchored-literal terms match nothing -/

/-- C10: an anchored-literal term that is only sigils (`^`, `$` or `^$`)
matches no text; consequently a sigil-only exclude term excludes no
candidate (dropping it from the spec changes no filtering decision), and the
query `'^$` — whose single exact term is `^$` — makes `search_entries`
return empty on every entry list. -/
theorem C10_sigil_only_anchored_literals :
    (∀ text : String,
      matches_anchored_literal "^" text = false ∧
      matches_anchored_literal "$" text = false ∧
      matches_anchored_literal "^$" text = false) ∧
    (∀ (eng : RegexEngine) (inc ex excl : List String) (path : String)
        (use_regex : Bool),
      matches_spec eng ⟨inc, ex, "^$" :: excl⟩ path use_regex =
        matches_spec eng ⟨inc, ex, excl⟩ path use_regex) ∧
    (∀ (eng : RegexEngine) (ratio : String → String → Rat)
        (entries : List String) (limit : Int) (use_regex : Bool),
      search_entries eng ratio (quoteTok ++ "^$") entries limit use_regex
        = []) := by
  have hlit : ∀ text : String,
      matches_anchored_literal "^" text = false ∧
      matches_anchored_literal "$" text = false ∧
      matches_anchored_literal "^$" text = false := by
    intro text
    refine ⟨?_, ?_, ?_⟩ <;>
      · unfold matches_anchored_literal
        rw [if_pos (by decide)]
  refine ⟨hlit, ?_, ?_⟩
  · intro eng inc ex excl path use_regex
    unfold matches_spec
    have hexcl : matches_exclusion_term "^$"
        (lower_str (pathName path)) (lower_str path) = false := by
      unfold matches_exclusion_term
      rw [show lower_str "^$" = "^$" from rfl]
      dsimp only
      rw [(hlit _).2.2, (hlit _).2.2]
      rfl
    simp only [List.any_cons, hexcl, Bool.false_or]
  · intro eng ratio entries limit use_regex
    unfold search_entries
    by_cases h1 : trim_str (quoteTok ++ "^$") = ""
    · rw [if_pos h1]
    · rw [if_neg h1]
      by_cases h2 : limit ≤ 0
      · rw [if_pos h2]
      · rw [if_neg h2]
        have hqs : parse_query (trim_str (quoteTok ++ "^$")) =
            ⟨[], ["^$"], []⟩ := by decide
        have hms : ∀ p : String,
            matches_spec eng ⟨[], ["^$"], []⟩ p use_regex = false := by
          intro p
          unfold matches_spec
          have hex : matches_exact_term "^$"
              (lower_str (pathName p)) (lower_str p) = false := by
            unfold matches_exact_term
            rw [show lower_str "^$" = "^$" from rfl]
            dsimp only
            rw [(hlit _).2.2, (hlit _).2.2]
            rfl
          simp [hex]
        rw [hqs]
        dsimp only
        rw [List.filter_congr (fun p _ => hms p), List.filter_false]
        rw [if_pos rfl]

/-- Evaluation helper: when exactly one entry survives the filter, the
search result is that entry (whatever its score). -/
lemma search_result_fst_singleton (eng : RegexEngine)
    (ratio : String → String → Rat) (query : String) (entries : List String)
    (limit : Int) (use_regex : Bool) (p : String)
    (h1 : ¬ trim_str query = "") (h2 : ¬ limit ≤ 0)
    (hfil : entries.filter
        (fun x => matches_spec eng (parse_query (trim_str query)) x use_regex)
      = [p]) :
    (search_entries eng ratio query entries limit use_regex).map Prod.fst
      = [p] := by
  rw [search_entries_eq_sorted_boosted eng ratio query entries limit
    use_regex h1 h2]
  unfold boosted_of
  rw [hfil]
  rw [show dedup_first [p] = [p] from rfl]
  dsimp only
  rw [List.map_cons, List.map_nil, List.map_cons, List.map_nil,
    List.mergeSort_singleton]
  have hn : limit.toNat ≠ 0 := by omega
  cases hcase : limit.toNat with
  | zero => exact absurd hcase hn
  | succ m => simp

/-! ### C6: exclusion priority -/

/-- C6: an entry for which some exclude term of the parsed query
anchored-matches the lowercased basename or the lowercased full path never
appears in the results of `search_entries` — regardless of the include and
exact terms it satisfies. -/
theorem C6_exclusion_priority (eng : RegexEngine)
    (ratio : String → String → Rat) (query : String) (entries : List String)
    (limit : Int) (use_regex : Bool) (p t : String)
    (ht : t ∈ (parse_query (trim_str query)).exclude_terms)
    (hmatch : matches_exclusion_term t (lower_str (pathName p))
        (lower_str p) = true) :
    p ∉ (search_entries eng ratio query entries limit use_regex).map
        Prod.fst := by
  intro hp
  have hms := mem_search_entries_matches eng ratio query entries limit
    use_regex p hp
  have hany : (parse_query (trim_str query)).exclude_terms.any
      (fun t => matches_exclusion_term t (lower_str (pathName p))
        (lower_str p)) = true :=
    List.any_eq_true.mpr ⟨t, ht, hmatch⟩
  unfold matches_spec at hms
  dsimp only at hms
  rw [if_pos hany] at hms
  exact Bool.false_ne_true hms

/-- Witness for C6: with query `"!readme"`, the entry
`/tmp/src/readme.md` is never returned. -/
theorem C6_witness :
    "/tmp/src/readme.md" ∉
      (search_entries trivialEngine zeroRatio "!readme"
        ["/tmp/src/main.py", "/tmp/src/readme.md"] 10 false).map Prod.fst :=
  C6_exclusion_priority trivialEngine zeroRatio "!readme"
    ["/tmp/src/main.py", "/tmp/src/readme.md"] 10 false
    "/tmp/src/readme.md" "readme" (by decide) (by decide)

/-! ### C5: exact-term anchored filtering -/

/-- The anchored-match relation exactly as the specification words it: `^`
requires the text to start with the remainder, `$` to end with it, both
require full equality, neither makes it a plain substring test. -/
def anchored_match_claim (term text : String) : Bool :=
  let hasStart := starts_with_str term "^"
  let hasEnd := ends_with_str term "$"
  let rem := strip_sigils term
  if hasStart && hasEnd then decide (text = rem)
  else if hasStart then starts_with_str text rem
  else if hasEnd then ends_with_str text rem
  else str_contains rem text

lemma anchored_literal_imp_claim (term text : String)
    (h : matches_anchored_literal term text = true) :
    anchored_match_claim term text = true := by
  unfold matches_anchored_literal at h
  dsimp only at h
  unfold anchored_match_claim
  dsimp only
  by_cases hc : strip_sigils term = ""
  · rw [if_pos hc] at h
    exact absurd h Bool.false_ne_true
  · rw [if_neg hc] at h
    exact h

lemma exact_term_matches_of_spec (eng : RegexEngine) (spec : QuerySpec)
    (p : String) (use_regex : Bool)
    (hms : matches_spec eng spec p use_regex = true) :
    ∀ t ∈ spec.exact_terms,
      matches_exact_term t (lower_str (pathName p)) (lower_str p) = true := by
  unfold matches_spec at hms
  dsimp only at hms
  intro t ht
  by_cases hany : spec.exclude_terms.any
      (fun t => matches_exclusion_term t (lower_str (pathName p))
        (lower_str p)) = true
  · rw [if_pos hany] at hms
    exact absurd hms Bool.false_ne_true
  · rw [if_neg hany] at hms
    by_cases hall : spec.exact_terms.all
        (fun t => matches_exact_term t (lower_str (pathName p))
          (lower_str p)) = true
    · exact List.all_eq_true.mp hall t ht
    · rw [if_pos (by simp [hall])] at hms
      exact absurd hms Bool.false_ne_true

/-- C5: (i) on terms whose remainder after stripping the sigils is nonempty,
`_matches_anchored_literal` is exactly the anchored matching the
specification describes; (ii) every entry returned by `search_entries`
satisfies, for every exact term of the parsed query, the spec's anchored
match against the lowercased basename or the lowercased full path; (iii) an
entry for which some exact term anchored-matches neither is excluded from
the results. -/
theorem C5_exact_anchored_filtering :
    (∀ term text : String, strip_sigils term ≠ "" →
      matches_anchored_literal term text = anchored_match_claim term text) ∧
    (∀ (eng : RegexEngine) (ratio : String → String → Rat) (query : String)
        (entries : List String) (limit : Int) (use_regex : Bool)
        (p : String),
      p ∈ (search_entries eng ratio query entries limit use_regex).map
          Prod.fst →
        ∀ t ∈ (parse_query (trim_str query)).exact_terms,
          (anchored_match_claim (lower_str t) (lower_str (pathName p)) ||
            anchored_match_claim (lower_str t) (lower_str p)) = true) ∧
    (∀ (eng : RegexEngine) (ratio : String → String → Rat) (query : String)
        (entries : List String) (limit : Int) (use_regex : Bool)
        (p t : String),
      t ∈ (parse_query (trim_str query)).exact_terms →
      (anchored_match_claim (lower_str t) (lower_str (pathName p)) ||
        anchored_match_claim (lower_str t) (lower_str p)) = false →
      p ∉ (search_entries eng ratio query entries limit use_regex).map
          Prod.fst) := by
  have hiff : ∀ term text : String, strip_sigils term ≠ "" →
      matches_anchored_literal term text = anchored_match_claim term text := by
    intro term text h
    unfold matches_anchored_literal anchored_match_claim
    dsimp only
    rw [if_neg h]
  have hmem : ∀ (eng : RegexEngine) (ratio : String → String → Rat)
      (query : String) (entries : List String) (limit : Int)
      (use_regex : Bool) (p : String),
      p ∈ (search_entries eng ratio query entries limit use_regex).map
          Prod.fst →
        ∀ t ∈ (parse_query (trim_str query)).exact_terms,
          (anchored_match_claim (lower_str t) (lower_str (pathName p)) ||
            anchored_match_claim (lower_str t) (lower_str p)) = true := by
    intro eng ratio query entries limit use_regex p hp t ht
    have hms := mem_search_entries_matches eng ratio query entries limit
      use_regex p hp
    have hex := exact_term_matches_of_spec eng _ p use_regex hms t ht
    unfold matches_exact_term at hex
    dsimp only at hex
    rcases Bool.or_eq_true_iff.mp hex with h | h
    · rw [anchored_literal_imp_claim _ _ h]
      rfl
    · rw [anchored_literal_imp_claim _ _ h]
      simp
  refine ⟨hiff, hmem, ?_⟩
  intro eng ratio query entries limit use_regex p t ht hfail hp
  have := hmem eng ratio query entries limit use_regex p hp t ht
  rw [hfail] at this
  exact Bool.false_ne_true this

/-- Witness for C5: concrete instances of all three parts — the anchored
equivalence at term `^ma`, the necessity of anchored matching for the
returned entry of query `'main`, and the exclusion of an entry failing the
exact term `zzz`. -/
theorem C5_witness :
    matches_anchored_literal "^ma" "main" = anchored_match_claim "^ma" "main"
      ∧
    (anchored_match_claim (lower_str "main")
        (lower_str (pathName "/tmp/src/main.py")) ||
      anchored_match_claim (lower_str "main")
        (lower_str "/tmp/src/main.py")) = true ∧
    "/a/b" ∉ (search_entries trivialEngine zeroRatio (quoteTok ++ "zzz")
        ["/a/b"] 20 false).map Prod.fst := by
  refine ⟨C5_exact_anchored_filtering.1 "^ma" "main" (by decide), ?_, ?_⟩
  · have hp : "/tmp/src/main.py" ∈
        (search_entries trivialEngine zeroRatio (quoteTok ++ "main")
          ["/tmp/src/main.py"] 20 false).map Prod.fst := by
      rw [search_result_fst_singleton trivialEngine zeroRatio
        (quoteTok ++ "main") ["/tmp/src/main.py"] 20 false
        "/tmp/src/main.py" (by decide) (by decide) (by decide)]
      exact List.mem_singleton.mpr rfl
    exact C5_exact_anchored_filtering.2.1 trivialEngine zeroRatio
      (quoteTok ++ "main") ["/tmp/src/main.py"] 20 false "/tmp/src/main.py"
      hp "main" (by decide)
  · exact C5_exact_anchored_filtering.2.2 trivialEngine zeroRatio
      (quoteTok ++ "zzz") ["/a/b"] 20 false "/a/b" "zzz" (by decide)
      (by decide)

/-! ### C2: soft single-character anchors of include terms -/

/-- Non-regex include-term matching exactly as the specification words it:
after stripping the sigils, `^` only requires the first character of the
stripped term to equal the first character of the basename or of the full
path, `$` only the last character to equal the last character of the
basename or of the full path, and the stripped term must occur as
case-insensitive substring or ordered subsequence of basename or full
path. -/
def include_match_claim (term name full : String) : Bool :=
  let t := lower_str term
  let hasStart := starts_with_str t "^"
  let hasEnd := ends_with_str t "$"
  let core := strip_sigils t
  (!hasStart
      || (starts_with_str name (String.singleton (first_char core))
        || starts_with_str full (String.singleton (first_char core)))) &&
    ((!hasEnd
        || (ends_with_str name (String.singleton (last_char core))
          || ends_with_str full (String.singleton (last_char core)))) &&
      (is_fuzzy_match core name || is_fuzzy_match core full))

/-- C2: (i) in non-regex mode, on include terms whose stripped content is
nonempty, `_matches_include_term` is exactly the claim's soft
single-character-anchored fuzzy matching; (ii) the scenario: for entries
`[/tmp/src/domain, /tmp/src/main.py]` and query `"main$"` with regex off,
only `/tmp/src/domain` is returned. -/
theorem C2_soft_anchor_include_matching :
    (∀ (eng : RegexEngine) (term name full : String),
      strip_sigils (lower_str term) ≠ "" →
        matches_include_term eng term name full false =
          include_match_claim term name full) ∧
    (∀ (eng : RegexEngine) (ratio : String → String → Rat),
      (search_entries eng ratio "main$" ["/tmp/src/domain", "/tmp/src/main.py"]
          20 false).map Prod.fst = ["/tmp/src/domain"]) := by
  constructor
  · intro eng term name full h
    unfold matches_include_term include_match_claim
    rw [if_neg Bool.false_ne_true]
    dsimp only
    rw [if_neg h]
    have hb : ∀ b1 b2 b3 b4 b5 : Bool,
        (if b1 && !b2 then false else if b3 && !b4 then false else b5) =
          ((!b1 || b2) && ((!b3 || b4) && b5)) := by decide
    exact hb _ _ _ _ _
  · intro eng ratio
    refine search_result_fst_singleton eng ratio "main$"
      ["/tmp/src/domain", "/tmp/src/main.py"] 20 false "/tmp/src/domain"
      (by decide) (by decide) ?_
    exact (by decide :
      List.filter
          (fun x => matches_spec trivialEngine
            (parse_query (trim_str "main$")) x false)
          ["/tmp/src/domain", "/tmp/src/main.py"] = ["/tmp/src/domain"])

/-- Witness for C2: the equivalence instantiated at term `main$` against
the basename and full path of `/tmp/src/domain`. -/
theorem C2_witness :
    matches_include_term trivialEngine "main$" "domain" "/tmp/src/domain"
      false = include_match_claim "main$" "domain" "/tmp/src/domain" :=
  C2_soft_anchor_include_matching.1 trivialEngine "main$" "domain"
    "/tmp/src/domain" (by decide)

/-! ### C1: descending order and stability of the final ranking -/

lemma boosted_le_trans (a b c : String × Rat)
    (hab : decide (b.2 ≤ a.2) = true) (hbc : decide (c.2 ≤ b.2) = true) :
    decide (c.2 ≤ a.2) = true := by
  simp only [decide_eq_true_eq] at *
  exact hbc.trans hab

lemma boosted_le_total (a b : String × Rat) :
    (decide (b.2 ≤ a.2) || decide (a.2 ≤ b.2)) = true := by
  simp only [Bool.or_eq_true, decide_eq_true_eq]
  exact le_total _ _

/-- C1: the search result is sorted descending by final boosted score, and
for every score value the returned entries carrying it form, in order, a
sublist of the input entry list — equal-score entries keep the relative
order in which they entered the filtered candidate set, which is their
original order in `entries`. -/
theorem C1_descending_stable_sort (eng : RegexEngine)
    (ratio : String → String → Rat) (query : String) (entries : List String)
    (limit : Int) (use_regex : Bool) :
    ((search_entries eng ratio query entries limit use_regex).Pairwise
      (fun x y => y.2 ≤ x.2)) ∧
    (∀ s : Rat,
      (((search_entries eng ratio query entries limit use_regex).filter
          (fun x => decide (x.2 = s))).map Prod.fst).Sublist entries) := by
  by_cases h1 : trim_str query = ""
  · rw [(C9_blank_query_or_nonpositive_limit eng ratio query entries limit
      use_regex).1 h1]
    exact ⟨List.Pairwise.nil, fun s => List.nil_sublist entries⟩
  · by_cases h2 : limit ≤ 0
    · rw [(C9_blank_query_or_nonpositive_limit eng ratio query entries limit
        use_regex).2 h2]
      exact ⟨List.Pairwise.nil, fun s => List.nil_sublist entries⟩
    · rw [search_entries_eq_sorted_boosted eng ratio query entries limit
        use_regex h1 h2]
      set boosted := boosted_of eng ratio (parse_query (trim_str query))
        entries use_regex with hboosted
      set le : String × Rat → String × Rat → Bool :=
        fun x y => decide (y.2 ≤ x.2) with hle
      have hsorted : (boosted.mergeSort le).Pairwise
          (fun a b => le a b = true) :=
        List.sorted_mergeSort boosted_le_trans boosted_le_total boosted
      constructor
      · have hptake := List.Pairwise.sublist
          (List.take_sublist limit.toNat (boosted.mergeSort le)) hsorted
        exact hptake.imp (fun {a b} h => by
          rw [hle] at h
          exact decide_eq_true_eq.mp h)
      · intro s
        set p : String × Rat → Bool := fun x => decide (x.2 = s) with hp
        set c := boosted.filter p with hc
        have hcall : ∀ a ∈ c, p a = true := fun a ha =>
          (List.mem_filter.mp ha).2
        have hcsorted : c.Pairwise (fun a b => le a b = true) := by
          refine List.pairwise_of_forall_mem_list ?_
          intro a hA b hB
          have ha2 : a.2 = s := decide_eq_true_eq.mp (hcall a hA)
          have hb2 : b.2 = s := decide_eq_true_eq.mp (hcall b hB)
          rw [hle]
          simp only [decide_eq_true_eq]
          rw [ha2, hb2]
        have hstable : c.Sublist (boosted.mergeSort le) :=
          List.sublist_mergeSort boosted_le_trans boosted_le_total hcsorted
            (List.filter_sublist boosted)
        have heq : (boosted.mergeSort le).filter p = c := by
          have hperm : ((boosted.mergeSort le).filter p).Perm c :=
            (List.mergeSort_perm boosted le).filter p
          have hcsub : c.Sublist ((boosted.mergeSort le).filter p) := by
            have hcf : c.filter p = c := List.filter_eq_self.mpr hcall
            have hsf := hstable.filter p
            rwa [hcf] at hsf
          exact (hcsub.eq_of_length hperm.length_eq.symm).symm
        have hsub1 : ((boosted.mergeSort le).take limit.toNat).filter p
            |>.Sublist ((boosted.mergeSort le).filter p) :=
          (List.take_sublist _ _).filter p
        rw [heq] at hsub1
        have hsub2 : c.Sublist boosted := List.filter_sublist boosted
        have hsub3 : (((boosted.mergeSort le).take limit.toNat).filter
            p).Sublist boosted := hsub1.trans hsub2
        have hmap := hsub3.map Prod.fst
        rw [hboosted, map_fst_boosted_of] at hmap
        exact hmap.trans ((dedup_first_sublist _).trans
          (List.filter_sublist entries))

/-! ### Filesystem walker (`indexer.py`, `_walk`) -/

/-- A directory entry as one `iterdir` call of `_walk` observes it: the
child's canonical (resolved) path plus its classification.  A non-symlink
directory carries the listing its own later `iterdir` call would produce
(`none` models a listing that raises `PermissionError` /
`NotADirectoryError`).  A symlinked directory also carries its target's
listing, so that "never descended into" is an observable property of the
walk.  A symlink to a file classifies as `file` (`is_dir()` is false). -/
inductive Dirent where
  | file (canon : List String)
  | dir (canon : List String) (sub : Option (List Dirent))
  | symlinkDir (canon : List String) (sub : List Dirent)

mutual
def direntSize : Dirent → Nat
  | .file _ => 1
  | .symlinkDir _ _ => 1
  | .dir _ none => 2
  | .dir _ (some l) => 2 + direntsSize l
def direntsSize : List Dirent → Nat
  | [] => 0
  | d :: ds => direntSize d + direntsSize ds
end

/-- One `iterdir` pass of `_walk` (`indexer.py` lines 65-72): record files
and directories (symlinked or not) in child order and collect, in child
order, the listings of the non-symlink directories that are pushed onto the
stack. -/
def process_children : List Dirent →
    List (List String) × List (List String) × List (Option (List Dirent))
  | [] => ([], [], [])
  | .file c :: rest =>
    let r := process_children rest
    (c :: r.1, r.2.1, r.2.2)
  | .dir c sub :: rest =>
    let r := process_children rest
    (r.1, c :: r.2.1, sub :: r.2.2)
  | .symlinkDir c _ :: rest =>
    let r := process_children rest
    (r.1, c :: r.2.1, r.2.2)

def frame_size : Option (List Dirent) → Nat
  | none => 1
  | some l => 1 + direntsSize l

def stack_size : List (Option (List Dirent)) → Nat
  | [] => 0
  | f :: fs => frame_size f + stack_size fs

lemma stack_size_append (a b : List (Option (List Dirent))) :
    stack_size (a ++ b) = stack_size a + stack_size b := by
  induction a with
  | nil => simp [stack_size]
  | cons f fs ih => simp [stack_size, ih]; omega

lemma stack_size_reverse (a : List (Option (List Dirent))) :
    stack_size a.reverse = stack_size a := by
  induction a with
  | nil => rfl
  | cons f fs ih =>
    simp only [List.reverse_cons, stack_size_append, ih, stack_size]
    omega

lemma process_children_pushed_size (children : List Dirent) :
    stack_size (process_children children).2.2 ≤ direntsSize children := by
  induction children with
  | nil => simp [process_children, stack_size, direntsSize]
  | cons d rest ih =>
    cases d with
    | file c =>
      simp only [process_children, direntsSize, direntSize]
      omega
    | dir c sub =>
      cases sub with
      | none =>
        simp only [process_children, direntsSize, direntSize, stack_size,
          frame_size]
        omega
      | some l =>
        simp only [process_children, direntsSize, direntSize, stack_size,
          frame_size]
        omega
    | symlinkDir c s =>
      simp only [process_children, direntsSize, direntSize]
      omega

/-- The explicit-stack loop of `_walk` (`indexer.py` lines 62-76): pop a
frame, list it (the `none` frame models the swallowed listing error, which
contributes nothing), record files and directories in child order, and
continue with the pushed listings on top of the stack, newest first
(Python's `stack.pop()` takes the most recently appended path). -/
def walk_stack : List (Option (List Dirent)) →
    List (List String) × List (List String)
  | [] => ([], [])
  | none :: rest => walk_stack rest
  | some children :: rest =>
    let r := process_children children
    let w := walk_stack (r.2.2.reverse ++ rest)
    (r.1 ++ w.1, r.2.1 ++ w.2)
termination_by s => stack_size s
decreasing_by
  · simp [stack_size, frame_size]
  · have h1 := process_children_pushed_size children
    rw [stack_size_append, stack_size_reverse]
    simp only [stack_size, frame_size]
    omega

/-- `_walk(root)` on a modelled tree: the walk starts with the root's
listing on the stack and returns `(files, dirs)`; the root itself is not an
output entry. -/
def walk_fs (rootListing : Option (List Dirent)) :
    List (List String) × List (List String) :=
  walk_stack [rootListing]

/-- `walk_entries` from `indexer.py` (prototype): files then directories,
under the include flags. -/
def walk_entries (rootListing : Option (List Dirent))
    (include_files include_dirs : Bool) : List (List String) :=
  let r := walk_fs rootListing
  (if include_files then r.1 else []) ++ (if include_dirs then r.2 else [])

mutual
/-- Replace the (never visited) listing carried by every symlinked
directory with the empty listing. -/
def scrub_dirent : Dirent → Dirent
  | .file c => .file c
  | .dir c none => .dir c none
  | .dir c (some l) => .dir c (some (scrub_dirents l))
  | .symlinkDir c _ => .symlinkDir c []
def scrub_dirents : List Dirent → List Dirent
  | [] => []
  | d :: ds => scrub_dirent d :: scrub_dirents ds
end

lemma process_children_scrub (children : List Dirent) :
    process_children (scrub_dirents children) =
      ((process_children children).1, (process_children children).2.1,
        (process_children children).2.2.map
          (Option.map scrub_dirents)) := by
  induction children with
  | nil => rfl
  | cons d rest ih =>
    cases d with
    | file c => simp [scrub_dirents, scrub_dirent, process_children, ih]
    | dir c sub =>
      cases sub with
      | none => simp [scrub_dirents, scrub_dirent, process_children, ih]
      | some l => simp [scrub_dirents, scrub_dirent, process_children, ih]
    | symlinkDir c s =>
      simp [scrub_dirents, scrub_dirent, process_children, ih]

lemma walk_stack_scrub_aux (n : Nat) :
    ∀ stack : List (Option (List Dirent)), stack_size stack ≤ n →
      walk_stack (stack.map (Option.map scrub_dirents)) = walk_stack stack := by
  induction n with
  | zero =>
    intro stack hs
    cases stack with
    | nil => rfl
    | cons f rest =>
      exfalso
      cases f <;> simp [stack_size, frame_size] at hs
  | succ n ih =>
    intro stack hs
    cases stack with
    | nil => rfl
    | cons f rest =>
      cases f with
      | none =>
        rw [List.map_cons, Option.map_none']
        rw [walk_stack, walk_stack]
        refine ih rest ?_
        simp only [stack_size, frame_size] at hs
        omega
      | some children =>
        rw [List.map_cons, Option.map_some']
        rw [walk_stack, walk_stack, process_children_scrub]
        dsimp only
        have hmap : ((process_children children).2.2.map
            (Option.map scrub_dirents)).reverse ++
              rest.map (Option.map scrub_dirents) =
            ((process_children children).2.2.reverse ++ rest).map
              (Option.map scrub_dirents) := by
          rw [List.map_append, List.map_reverse]
        rw [hmap, ih ((process_children children).2.2.reverse ++ rest) ?_]
        have h1 := process_children_pushed_size children
        rw [stack_size_append, stack_size_reverse]
        simp only [stack_size, frame_size] at hs ⊢
        omega

/-- `_walk` never reads the listing carried by a symlinked directory: the
walk is unchanged when every symlink's target listing is replaced by the
empty one. -/
lemma walk_stack_scrub (stack : List (Option (List Dirent))) :
    walk_stack (stack.map (Option.map scrub_dirents)) = walk_stack stack :=
  walk_stack_scrub_aux (stack_size stack) stack le_rfl

lemma symlink_mem_process_dirs (children : List Dirent) (c : List String)
    (sub : List Dirent) :
    Dirent.symlinkDir c sub ∈ children →
      c ∈ (process_children children).2.1 := by
  induction children with
  | nil => intro h; cases h
  | cons d rest ih =>
    intro h
    rcases List.mem_cons.mp h with heq | h2
    · rw [← heq]
      simp [process_children]
    · cases d with
      | file c2 => simpa [process_children] using ih h2
      | dir c2 sub2 => simpa [process_children] using Or.inr (ih h2)
      | symlinkDir c2 sub2 => simpa [process_children] using Or.inr (ih h2)

/-- C4 counterexample: a tree whose root holds the directory `A` and a
symlink resolving to the same canonical path `A` makes the walk emit the
canonical path twice — the walk does not deduplicate output entries by
canonical path. -/
theorem C4_counterexample :
    walk_entries (some [Dirent.dir ["r", "A"] (some []),
        Dirent.symlinkDir ["r", "A"] []]) true true =
      [["r", "A"], ["r", "A"]] ∧
    ¬ (walk_entries (some [Dirent.dir ["r", "A"] (some []),
        Dirent.symlinkDir ["r", "A"] []]) true true).Nodup := by
  have h : walk_entries (some [Dirent.dir ["r", "A"] (some []),
      Dirent.symlinkDir ["r", "A"] []]) true true =
        [["r", "A"], ["r", "A"]] := by
    simp [walk_entries, walk_fs, walk_stack, process_children]
  refine ⟨h, ?_⟩
  rw [h]
  decide

/-- C4 (amended): a single walk records every symlinked directory as an
output entry, and never enumerates a symlinked directory's children through
the symlink — the walk output is unchanged when every symlink's target
listing is replaced by the empty listing.  Output entries are, however, not
deduplicated by canonical path: a symlink and its target each contribute an
entry (see the counterexample). -/
theorem C4_symlink_guard :
    (∀ (children : List Dirent) (c : List String) (sub : List Dirent),
      Dirent.symlinkDir c sub ∈ children →
        c ∈ (walk_fs (some children)).2) ∧
    (∀ rootListing : Option (List Dirent),
      walk_fs (Option.map scrub_dirents rootListing) =
        walk_fs rootListing) := by
  constructor
  · intro children c sub h
    unfold walk_fs
    rw [walk_stack]
    exact List.mem_append_left _ (symlink_mem_process_dirs children c sub h)
  · intro rootListing
    unfold walk_fs
    have := walk_stack_scrub [rootListing]
    simpa using this

/-- Witness for C4: in the counterexample tree, the symlinked directory's
canonical path is recorded among the walked directories. -/
theorem C4_witness :
    ["r", "A"] ∈ (walk_fs (some [Dirent.dir ["r", "A"] (some []),
        Dirent.symlinkDir ["r", "A"] []])).2 :=
  C4_symlink_guard.1 _ ["r", "A"] []
    (List.mem_cons_of_mem _ (List.mem_cons_self _ _))

/-! ### Manifest reader and index builder (`indexer.py`) -/

/-- The newline character. -/
def nlChar : Char := Char.ofNat 10

/-- Split a character list at a separator (pieces in order, empties kept). -/
def split_char_aux (sep : Char) : List Char → List Char → List (List Char)
  | [], cur => [cur.reverse]
  | c :: cs, cur =>
    if c = sep then cur.reverse :: split_char_aux sep cs []
    else split_char_aux sep cs (c :: cur)

/-- Python `str.splitlines()` restricted to `\n` separators (the manifest
writer only emits `\n`): the final empty piece, present when the text ends
in a newline, is harmless to the parser, which skips blank lines. -/
def split_lines (s : String) : List String :=
  (split_char_aux nlChar s.data []).map (fun cs => (⟨cs⟩ : String))

/-- Python `"\n".join(lines)`. -/
def join_with_nl : List String → String
  | [] => ""
  | [x] => x
  | x :: xs => x ++ String.singleton nlChar ++ join_with_nl xs

/-- Kind of an existing filesystem object. -/
inductive FKind
  | file
  | dir
deriving DecidableEq, Repr

/-- Read failure of `Path.read_text` (`OSError` / `UnicodeDecodeError`):
the manifest is unreadable or undecodable. -/
structure ReadError where
  msg : String
deriving DecidableEq, Repr

/-- The filesystem as `indexer.py` observes it, over paths given as
component lists from the filesystem root: `resolveFn` is `Path.resolve`
(canonicalization), `kind` gives existence and file/directory kind of a
canonical path, `listdir` the child names of a directory (`iterdir`, in
implementation-defined order), `readText` the text of a file (or a read
error), and `walkFn` the entry list the filesystem walker produces for a
root under the include flags (the walker itself is modelled separately on
`Dirent` trees). -/
structure FS where
  resolveFn : List String → List String
  kind : List String → Option FKind
  listdir : List String → List String
  readText : List String → Except ReadError String
  walkFn : List String → Bool → Bool → List (List String)

/-- `find_filelist` from `indexer.py`: prefer the exact-case names
`FileList.txt` then `filelist.txt` as direct children, then scan the
root's children for any file whose lowercased name is `filelist.txt`. -/
def find_filelist (fs : FS) (root : List String) : Option (List String) :=
  let upper := root ++ ["FileList.txt"]
  let lower := root ++ ["filelist.txt"]
  if fs.kind upper = some FKind.file then some upper
  else if fs.kind lower = some FKind.file then some lower
  else
    (fs.listdir root).findSome? (fun n =>
      if fs.kind (root ++ [n]) = some FKind.file ∧
          lower_str n = "filelist.txt" then some (root ++ [n])
      else none)

/-- `pathlib` parsing of a manifest line: absolute iff it starts with `/`;
components are the pieces between `/`, with empty pieces and `.` pieces
normalized away (as `PurePath` does). -/
def path_components (line : String) : List String :=
  ((split_char_aux '/' line.data []).filter
      (fun c => c ≠ [] ∧ c ≠ ['.'])).map (fun cs => (⟨cs⟩ : String))

/-- Resolution of one manifest line (`indexer.py` lines 42-44): interpret
the line as a path, prepend `root` when relative, and canonicalize. -/
def resolve_line (fs : FS) (root : List String) (line : String) :
    List String :=
  let comps := path_components line
  fs.resolveFn (if starts_with_str line "/" then comps else root ++ comps)

/-- The line loop of `parse_filelist` (`indexer.py` lines 37-53): strip the
line, skip blanks and `#` comments, resolve, skip nonexistent paths, filter
by kind under the include flags, deduplicate by resolved path with first
occurrence winning. -/
def parse_lines (fs : FS) (root : List String)
    (include_files include_dirs : Bool) :
    List String → List (List String) → List (List String)
  | [], _ => []
  | raw :: rest, seen =>
    let line := trim_str raw
    if line = "" || starts_with_str line "#" then
      parse_lines fs root include_files include_dirs rest seen
    else
      let resolved := resolve_line fs root line
      if fs.kind resolved = none then
        parse_lines fs root include_files include_dirs rest seen
      else if fs.kind resolved = some FKind.file ∧ ¬ include_files then
        parse_lines fs root include_files include_dirs rest seen
      else if fs.kind resolved = some FKind.dir ∧ ¬ include_dirs then
        parse_lines fs root include_files include_dirs rest seen
      else if resolved ∈ seen then
        parse_lines fs root include_files include_dirs rest seen
      else
        resolved ::
          parse_lines fs root include_files include_dirs rest
            (resolved :: seen)

/-- `parse_filelist` from `indexer.py`: read the manifest as text — a read
failure propagates to the caller — and run the line loop. -/
def parse_filelist (fs : FS) (filelist_path root : List String)
    (include_files include_dirs : Bool) :
    Except ReadError (List (List String)) :=
  match fs.readText filelist_path with
  | .error e => .error e
  | .ok content =>
    .ok (parse_lines fs root include_files include_dirs
      (split_lines content) [])

/-- `IndexBuildResult` from `indexer.py`. -/
structure IndexBuildResult where
  entries : List (List String)
  source : String
  filelist_path : Option (List String) := none
deriving DecidableEq, Repr

/-- `build_index_with_metadata` from `indexer.py`: resolve the root; with
both include flags off return the empty `none`-result; otherwise try the
manifest (when `use_filelist` is on) and fall back to the walker only when
no manifest was found.  A manifest read error propagates as the result of
the build. -/
def build_index_with_metadata (fs : FS) (root : List String)
    (use_filelist include_files include_dirs : Bool) :
    Except ReadError IndexBuildResult :=
  let root := fs.resolveFn root
  if ¬ include_files ∧ ¬ include_dirs then
    .ok ⟨[], "none", none⟩
  else
    match (if use_filelist then find_filelist fs root else none) with
    | some filelist =>
      match parse_filelist fs filelist root include_files include_dirs with
      | .error e => .error e
      | .ok entries => .ok ⟨entries, "filelist", some filelist⟩
    | none =>
      .ok ⟨fs.walkFn root include_files include_dirs, "walker", none⟩

/-- The line `export_manifest` writes for one canonical entry
(`indexer.py` lines 149-153): the `/`-joined path relative to `root` when
the entry lies under it (`.` for the root itself, as `Path.relative_to`
renders it), else the absolute rendering. -/
def line_of (root e : List String) : String :=
  if root.isPrefixOf e then
    (if e.length = root.length then "."
      else String.intercalate "/" (e.drop root.length))
  else "/" ++ String.intercalate "/" e

/-- The line loop of `build_filelist_text` (`indexer.py` lines 148-156):
resolve each entry, render its line, deduplicate by the rendered string
with first occurrence winning. -/
def build_filelist_lines (fs : FS) (root : List String) :
    List (List String) → List String → List String
  | [], _ => []
  | e :: rest, seen =>
    let line := line_of root (fs.resolveFn e)
    if line ∈ seen then build_filelist_lines fs root rest seen
    else line :: build_filelist_lines fs root rest (line :: seen)

/-- `build_filelist_text` from `indexer.py`: newline-joined deduplicated
lines with a trailing newline, or the empty string when no lines remain. -/
def build_filelist_text (fs : FS) (entries : List (List String))
    (root : List String) : String :=
  let root := fs.resolveFn root
  let lines := build_filelist_lines fs root entries []
  if lines = [] then "" else join_with_nl lines ++ String.singleton nlChar

/-- `write_filelist` from `indexer.py`, modelled as the pair (written path,
written text): the manifest text for the entries is written to
`root/filename`, overwriting it, and the target path is returned. -/
def write_filelist (fs : FS) (root : List String)
    (entries : List (List String)) (filename : String) :
    List String × String :=
  let root := fs.resolveFn root
  (root ++ [filename], build_filelist_text fs entries root)

/-! ### C7: a manifest read error fails the build, with no walker fallback -/

/-- C7: (i) when the include flags ask for any entries, the manifest is in
use and found, and reading it fails, `build_index_with_metadata` surfaces
exactly that `ReadError` to its caller; (ii) a successful build whose
provenance is the walker can only arise with the manifest disabled or no
manifest found. -/
theorem C7_read_error_propagates :
    (∀ (fs : FS) (root : List String) (include_files include_dirs : Bool)
        (fl : List String) (e : ReadError),
      (include_files ∨ include_dirs) →
      find_filelist fs (fs.resolveFn root) = some fl →
      fs.readText fl = .error e →
      build_index_with_metadata fs root true include_files include_dirs =
        .error e) ∧
    (∀ (fs : FS) (root : List String)
        (use_filelist include_files include_dirs : Bool)
        (r : IndexBuildResult),
      build_index_with_metadata fs root use_filelist include_files
          include_dirs = .ok r →
      r.source = "walker" →
      use_filelist = false ∨ find_filelist fs (fs.resolveFn root) = none) := by
  constructor
  · intro fs root include_files include_dirs fl e hflags hfind hread
    unfold build_index_with_metadata
    dsimp only
    rw [if_neg (by
      intro hcon
      rcases hflags with h | h
      · rw [h] at hcon
        exact hcon.1 rfl
      · rw [h] at hcon
        exact hcon.2 rfl)]
    rw [if_pos rfl, hfind]
    unfold parse_filelist
    dsimp only
    rw [hread]
  · intro fs root use_filelist include_files include_dirs r hok hsrc
    unfold build_index_with_metadata at hok
    dsimp only at hok
    by_cases hflags : ¬ (include_files : Prop) ∧ ¬ (include_dirs : Prop)
    · rw [if_pos hflags] at hok
      injection hok with hr
      rw [← hr] at hsrc
      dsimp only at hsrc
      exact absurd hsrc (by decide)
    · rw [if_neg hflags] at hok
      cases huse : use_filelist with
      | false => exact Or.inl rfl
      | true =>
        rw [huse] at hok
        rw [if_pos rfl] at hok
        refine Or.inr ?_
        cases hfind : find_filelist fs (fs.resolveFn root) with
        | none => rfl
        | some fl =>
          exfalso
          rw [hfind] at hok
          dsimp only at hok
          cases hparse : parse_filelist fs fl (fs.resolveFn root)
              include_files include_dirs with
          | error e =>
            rw [hparse] at hok
            exact Except.noConfusion hok
          | ok entries =>
            rw [hparse] at hok
            injection hok with hr
            rw [← hr] at hsrc
            dsimp only at hsrc
            exact absurd hsrc (by decide)

/-- A concrete filesystem whose manifest exists but cannot be read. -/
def fsC7 : FS :=
  { resolveFn := fun p => p
  , kind := fun p =>
      if p = [] then some FKind.dir
      else if p = ["FileList.txt"] then some FKind.file
      else none
  , listdir := fun _ => ["FileList.txt"]
  , readText := fun _ => .error ⟨"undecodable"⟩
  , walkFn := fun _ _ _ => [] }

/-- Witness for C7: on `fsC7` the build surfaces the read error. -/
theorem C7_witness :
    build_index_with_metadata fsC7 [] true true true =
      .error ⟨"undecodable"⟩ :=
  C7_read_error_propagates.1 fsC7 [] true true ["FileList.txt"]
    ⟨"undecodable"⟩ (Or.inl rfl) (by decide) rfl

/-! ### C8: manifest round-trip -/

lemma split_char_aux_skip (sep : Char) (w cs cur : List Char)
    (hw : ∀ ch ∈ w, ch ≠ sep) :
    split_char_aux sep (w ++ cs) cur =
      split_char_aux sep cs (w.reverse ++ cur) := by
  induction w generalizing cur with
  | nil => simp
  | cons c w' ih =>
    rw [List.cons_append, split_char_aux,
      if_neg (hw c (List.mem_cons_self _ _)),
      ih (c :: cur) (fun ch hch => hw ch (List.mem_cons_of_mem _ hch))]
    simp

lemma split_join_lines (lines : List String)
    (hnl : ∀ l ∈ lines, ∀ ch ∈ l.data, ch ≠ nlChar) (h : lines ≠ []) :
    split_lines (join_with_nl lines ++ String.singleton nlChar) =
      lines ++ [""] := by
  induction lines with
  | nil => exact absurd rfl h
  | cons x xs ih =>
    cases xs with
    | nil =>
      unfold split_lines
      rw [String.data_append]
      rw [show (join_with_nl [x]).data = x.data from rfl]
      rw [split_char_aux_skip nlChar x.data _ []
        (hnl x (List.mem_cons_self _ _))]
      rw [show (String.singleton nlChar).data = [nlChar] from rfl]
      rw [split_char_aux, if_pos rfl]
      simp [split_char_aux]
    | cons y ys =>
      unfold split_lines
      rw [show join_with_nl (x :: y :: ys) =
        x ++ String.singleton nlChar ++ join_with_nl (y :: ys) from rfl]
      rw [String.data_append, String.data_append, String.data_append]
      rw [show (String.singleton nlChar).data = [nlChar] from rfl]
      rw [List.append_assoc, List.append_assoc]
      rw [split_char_aux_skip nlChar x.data _ []
        (hnl x (List.mem_cons_self _ _))]
      rw [show ([nlChar] ++ ((join_with_nl (y :: ys)).data ++ [nlChar])) =
        nlChar :: ((join_with_nl (y :: ys)).data ++ [nlChar]) from rfl]
      rw [split_char_aux, if_pos rfl]
      have ihh := ih (fun l hl => hnl l (List.mem_cons_of_mem _ hl))
        (by simp)
      unfold split_lines at ihh
      rw [String.data_append] at ihh
      rw [show (String.singleton nlChar).data = [nlChar] from rfl] at ihh
      rw [List.map_cons, ihh]
      rw [List.append_nil, List.reverse_reverse]
      rfl

lemma dedup_first_aux_nodup {α : Type} [BEq α] [LawfulBEq α]
    (seen : List α) (l : List α) :
    (dedup_first_aux seen l).Nodup ∧
      ∀ x ∈ dedup_first_aux seen l, x ∉ seen := by
  induction l generalizing seen with
  | nil => simp [dedup_first_aux]
  | cons x xs ih =>
    rw [dedup_first_aux]
    by_cases hx : seen.contains x = true
    · rw [if_pos hx]
      exact ih seen
    · rw [if_neg hx]
      have hxs := ih (x :: seen)
      constructor
      · refine List.Nodup.cons ?_ hxs.1
        intro hmem
        have := hxs.2 x hmem
        exact this (List.mem_cons_self _ _)
      · intro y hy hyseen
        rcases List.mem_cons.mp hy with rfl | hy2
        · exact hx (List.elem_iff.mpr hyseen)
        · exact hxs.2 y hy2 (List.mem_cons_of_mem _ hyseen)

lemma dedup_first_aux_mem {α : Type} [BEq α] [LawfulBEq α]
    (seen : List α) (l : List α) (x : α) (hx : x ∈ dedup_first_aux seen l) :
    x ∈ l :=
  List.Sublist.mem hx (dedup_first_aux_sublist seen l)

lemma build_lines_eq (fs : FS) (root : List String) :
    ∀ (l seenP : List (List String)),
      (∀ e ∈ l, fs.resolveFn e = e ∧
        resolve_line fs root (line_of root e) = e) →
      (∀ p ∈ seenP, resolve_line fs root (line_of root p) = p) →
      build_filelist_lines fs root l (seenP.map (line_of root)) =
        (dedup_first_aux seenP l).map (line_of root) := by
  intro l
  induction l with
  | nil => intro seenP h1 h2; rfl
  | cons e rest ih =>
    intro seenP h1 h2
    rw [build_filelist_lines, dedup_first_aux]
    rw [(h1 e (List.mem_cons_self _ _)).1]
    have hmem : (line_of root e ∈ seenP.map (line_of root)) ↔
        seenP.contains e = true := by
      constructor
      · intro hm
        rcases List.mem_map.mp hm with ⟨p, hp, heq⟩
        have : e = p := by
          rw [← (h1 e (List.mem_cons_self _ _)).2, ← h2 p hp, heq]
        rw [this]
        exact List.elem_iff.mpr hp
      · intro hc
        exact List.mem_map_of_mem _ (List.elem_iff.mp hc)
    by_cases hc : seenP.contains e = true
    · rw [if_pos (hmem.mpr hc), if_pos hc]
      exact ih seenP (fun x hx => h1 x (List.mem_cons_of_mem _ hx)) h2
    · rw [if_neg (fun hm => hc (hmem.mp hm)), if_neg hc]
      rw [List.map_cons]
      congr 1
      have := ih (e :: seenP)
        (fun x hx => h1 x (List.mem_cons_of_mem _ hx))
        (fun p hp => by
          rcases List.mem_cons.mp hp with rfl | hp2
          · exact (h1 p (List.mem_cons_self _ _)).2
          · exact h2 p hp2)
      rw [← this]
      rfl

lemma parse_lines_eval (fs : FS) (root : List String) :
    ∀ (l seenP : List (List String)),
      (∀ e ∈ l,
        trim_str (line_of root e) = line_of root e ∧
        line_of root e ≠ "" ∧
        starts_with_str (line_of root e) "#" = false ∧
        resolve_line fs root (line_of root e) = e) →
      l.Nodup →
      (∀ e ∈ l, e ∉ seenP) →
      parse_lines fs root true true (l.map (line_of root) ++ [""]) seenP =
        l.filter (fun e => (fs.kind e).isSome) := by
  intro l
  induction l with
  | nil =>
    intro seenP h1 h2 h3
    rw [List.map_nil, List.nil_append, parse_lines]
    dsimp only
    rw [if_pos (by rw [show trim_str "" = "" from rfl]; simp)]
    rfl
  | cons e rest ih =>
    intro seenP h1 h2 h3
    obtain ⟨htrim, hne, hhash, hresb⟩ := h1 e (List.mem_cons_self _ _)
    rw [List.map_cons, List.cons_append, parse_lines]
    dsimp only
    rw [htrim]
    rw [if_neg (by simp [hne, hhash])]
    rw [hresb]
    have hrest1 : ∀ x ∈ rest,
        trim_str (line_of root x) = line_of root x ∧
        line_of root x ≠ "" ∧
        starts_with_str (line_of root x) "#" = false ∧
        resolve_line fs root (line_of root x) = x :=
      fun x hx => h1 x (List.mem_cons_of_mem _ hx)
    have hnodup := (List.nodup_cons.mp h2)
    cases hek : fs.kind e with
    | none =>
      rw [if_pos rfl]
      rw [ih seenP hrest1 hnodup.2
        (fun x hx => h3 x (List.mem_cons_of_mem _ hx))]
      rw [List.filter_cons]
      rw [hek]
      rfl
    | some k =>
      rw [if_neg (fun hcon => Option.noConfusion hcon)]
      rw [if_neg (by
        intro hcon
        exact hcon.2 rfl)]
      rw [if_neg (by
        intro hcon
        exact hcon.2 rfl)]
      rw [if_neg (h3 e (List.mem_cons_self _ _))]
      rw [ih (e :: seenP) hrest1 hnodup.2 (fun x hx hxs => by
        rcases List.mem_cons.mp hxs with rfl | hxs2
        · exact hnodup.1 hx
        · exact h3 x (List.mem_cons_of_mem _ hx) hxs2)]
      rw [List.filter_cons]
      rw [hek]
      rfl

/-- C8 (amended): writing a manifest with `write_filelist` under a root and
then running `find_filelist` followed by `parse_filelist` on that root
reproduces exactly the canonical entry list of the written entries,
deduplicated (first occurrence wins) and filtered to those still existing —
provided the written lines survive the parser's line handling: each
entry's manifest line is unchanged by whitespace stripping, nonempty, not
`#`-prefixed (a line starting with `#` is dropped as a comment — see the
counterexample), newline-free, and resolves back to the entry. -/
theorem C8_roundtrip (fs : FS) (root : List String)
    (entries : List (List String))
    (hroot : fs.resolveFn root = root)
    (hres : ∀ e ∈ entries, fs.resolveFn e = e)
    (hline : ∀ e ∈ entries,
      trim_str (line_of root e) = line_of root e ∧
      line_of root e ≠ "" ∧
      starts_with_str (line_of root e) "#" = false ∧
      (∀ ch ∈ (line_of root e).data, ch ≠ nlChar) ∧
      resolve_line fs root (line_of root e) = e)
    (hkind : fs.kind (root ++ ["FileList.txt"]) = some FKind.file)
    (hread : fs.readText (write_filelist fs root entries "FileList.txt").1 =
      .ok (write_filelist fs root entries "FileList.txt").2) :
    find_filelist fs root =
      some (write_filelist fs root entries "FileList.txt").1 ∧
    parse_filelist fs (write_filelist fs root entries "FileList.txt").1
        root true true =
      .ok ((dedup_first_aux [] entries).filter
        (fun e => (fs.kind e).isSome)) := by
  have hw1 : (write_filelist fs root entries "FileList.txt").1 =
      root ++ ["FileList.txt"] := by
    unfold write_filelist
    dsimp only
    rw [hroot]
  have hw2 : (write_filelist fs root entries "FileList.txt").2 =
      build_filelist_text fs entries root := by
    unfold write_filelist
    dsimp only
    rw [hroot]
  have hfind : find_filelist fs root = some (root ++ ["FileList.txt"]) := by
    unfold find_filelist
    dsimp only
    rw [if_pos hkind]
  have hlines : build_filelist_lines fs root entries [] =
      (dedup_first_aux [] entries).map (line_of root) :=
    build_lines_eq fs root entries []
      (fun e he => ⟨hres e he, (hline e he).2.2.2.2⟩)
      (fun p hp => absurd hp (List.not_mem_nil p))
  have hDmem : ∀ e ∈ dedup_first_aux ([] : List (List String)) entries,
      e ∈ entries :=
    fun e he => dedup_first_aux_mem [] entries e he
  have hDnodup : (dedup_first_aux ([] : List (List String)) entries).Nodup :=
    (dedup_first_aux_nodup [] entries).1
  refine ⟨by rw [hw1]; exact hfind, ?_⟩
  rw [hw1, hw2] at hread
  rw [hw1]
  unfold parse_filelist
  rw [hread]
  dsimp only
  have htext : build_filelist_text fs entries root =
      (if (dedup_first_aux ([] : List (List String)) entries).map
          (line_of root) = [] then ""
        else join_with_nl ((dedup_first_aux
            ([] : List (List String)) entries).map (line_of root)) ++
          String.singleton nlChar) := by
    unfold build_filelist_text
    dsimp only
    rw [hroot, hlines]
  rw [htext]
  by_cases hD : dedup_first_aux ([] : List (List String)) entries = []
  · rw [hD]
    simp only [List.map_nil]
    rw [if_pos trivial]
    have hpe := parse_lines_eval fs root [] []
      (fun e he => absurd he (List.not_mem_nil e))
      List.nodup_nil
      (fun e he => absurd he (List.not_mem_nil e))
    rw [show split_lines "" = [""] from rfl]
    rw [show (([] : List (List String)).map (line_of root) ++ [""]) = [""]
      from rfl] at hpe
    rw [hpe]
  · rw [if_neg (by
      intro hcon
      exact hD (List.map_eq_nil_iff.mp hcon))]
    rw [split_join_lines _ (by
      intro l hl ch hch
      rcases List.mem_map.mp hl with ⟨e, he, rfl⟩
      exact (hline e (hDmem e he)).2.2.2.1 ch hch)
      (by
        intro hcon
        exact hD (List.map_eq_nil_iff.mp hcon))]
    rw [parse_lines_eval fs root _ []
      (fun e he =>
        ⟨(hline e (hDmem e he)).1, (hline e (hDmem e he)).2.1,
          (hline e (hDmem e he)).2.2.1, (hline e (hDmem e he)).2.2.2.2⟩)
      hDnodup
      (fun e he => List.not_mem_nil e)]

/-- A concrete filesystem for the C8 counterexample: the root `r` holds a
file literally named `#x`, and the manifest written for it. -/
def fsC8 : FS :=
  { resolveFn := fun p => p
  , kind := fun p =>
      if p = ["r"] then some FKind.dir
      else if p = ["r", "#x"] then some FKind.file
      else if p = ["r", "FileList.txt"] then some FKind.file
      else none
  , listdir := fun _ => []
  , readText := fun p =>
      if p = ["r", "FileList.txt"] then
        .ok ("#x" ++ String.singleton nlChar)
      else .error ⟨"missing"⟩
  , walkFn := fun _ _ _ => [] }

/-- C8 counterexample: the entry `/r/#x` exists and is written to the
manifest as the line `#x`, the manifest is found — but parsing drops the
line as a comment, so the round-trip loses an entry that was never deleted,
contradicting the claim. -/
theorem C8_counterexample :
    fsC8.kind ["r", "#x"] = some FKind.file ∧
    write_filelist fsC8 ["r"] [["r", "#x"]] "FileList.txt" =
      (["r", "FileList.txt"], "#x" ++ String.singleton nlChar) ∧
    fsC8.readText ["r", "FileList.txt"] =
      .ok ("#x" ++ String.singleton nlChar) ∧
    find_filelist fsC8 ["r"] = some ["r", "FileList.txt"] ∧
    parse_filelist fsC8 ["r", "FileList.txt"] ["r"] true true = .ok [] :=
  ⟨by decide, by decide, rfl, by decide, rfl⟩

/-- A concrete filesystem for the C8 witness: the root `r` holds `a.txt`,
the manifest written for entries `/r/a.txt` and `/x/b` — and `/x/b` has
been deleted in between. -/
def fsC8W : FS :=
  { resolveFn := fun p => p
  , kind := fun p =>
      if p = ["r"] then some FKind.dir
      else if p = ["r", "a.txt"] then some FKind.file
      else if p = ["r", "FileList.txt"] then some FKind.file
      else none
  , listdir := fun _ => []
  , readText := fun p =>
      if p = ["r", "FileList.txt"] then
        .ok ("a.txt" ++ String.singleton nlChar ++ "/x/b" ++
          String.singleton nlChar)
      else .error ⟨"missing"⟩
  , walkFn := fun _ _ _ => [] }

/-- Witness for C8: writing the manifest for `/r/a.txt` and the
since-deleted `/x/b`, then finding and parsing it, returns exactly the
surviving entry. -/
theorem C8_witness :
    parse_filelist fsC8W
        (write_filelist fsC8W ["r"] [["r", "a.txt"], ["x", "b"]]
          "FileList.txt").1 ["r"] true true =
      .ok [["r", "a.txt"]] := by
  have h := C8_roundtrip fsC8W ["r"] [["r", "a.txt"], ["x", "b"]]
    rfl (by decide) (by decide) (by decide) rfl
  rw [h.2]
  rw [show (dedup_first_aux ([] : List (List String))
      [["r", "a.txt"], ["x", "b"]]).filter
        (fun e => (fsC8W.kind e).isSome) = [["r", "a.txt"]] from by decide]
